import Mathlib

/-!
Verification of the ProGallery batch transfer engine.

Upload path: `src/contexts/UploadContext.tsx` (`uploadFiles`).  The code runs
every upload task concurrently, simulates per-file byte progress on a 250 ms
interval (`bytesPerTick` bytes per tick, simulated only while the accounted
bytes are below 90% of the file size), snaps a file's accounted bytes to its
full size when its transport promise settles, republishes the aggregate
percentage on a separate 200 ms interval capped at 99, forces 100 once every
task has settled, shows one consolidated alert naming the failed files, and
clears the running state after a fixed delay.

Download path: `src/pages/ClientGallery.tsx` (`handleDownloadAll`).  The code
drains a shared queue with `min 3 n` sequential worker chains, fetches each
file under one shared abort signal, inserts successful payloads into a zip
keyed by the last segment of the storage path, skips failed fetches after
logging them, and after all workers finish generates and saves the archive
unless the signal was aborted.

Events of the JavaScript event loop (interval ticks, promise resolutions,
abort requests) are modelled as an explicit event list; `runU` / `runD` fold
the corresponding state transition over an arbitrary interleaving.
-/

unseal Rat.add Rat.mul Rat.inv Rat.sub

namespace ProGallery

/-- JavaScript `Math.round`: round half away from minus infinity, i.e.
`⌊x + 1/2⌋`, written directly on the rational's reduced representation so that
concrete runs evaluate inside the kernel (see `jsRound_eq`). -/
def jsRound (x : ℚ) : ℤ := (2 * x.num + (x.den : ℤ)) / ((2 * x.den : ℕ) : ℤ)

theorem jsRound_eq (x : ℚ) : jsRound x = ⌊x + 1 / 2⌋ := by
  have hd : ((x.den : ℚ)) ≠ 0 := Nat.cast_ne_zero.mpr x.den_nz
  have harg : (((2 * x.num + (x.den : ℤ)) : ℤ) : ℚ) / (((2 * x.den : ℕ)) : ℚ) = x + 1 / 2 := by
    have hx : (x.num : ℚ) / (x.den : ℚ) = x := Rat.num_div_den x
    have hnum : (x.num : ℚ) = x * (x.den : ℚ) := (div_eq_iff hd).mp hx
    push_cast
    rw [div_eq_iff (by positivity)]
    rw [hnum]
    ring
  rw [jsRound, ← Rat.floor_intCast_div_natCast (2 * x.num + (x.den : ℤ)) (2 * x.den), harg]

theorem jsRound_mono {x y : ℚ} (h : x ≤ y) : jsRound x ≤ jsRound y := by
  rw [jsRound_eq, jsRound_eq]
  exact Int.floor_le_floor (by linarith)

/-! ## Upload batch engine (src/contexts/UploadContext.tsx) -/

/-- One file handed to `uploadFiles` (name and `file.size` in bytes). -/
structure UFile where
  name : String
  size : ℚ
deriving DecidableEq, Inhabited, Repr

/-- Task status: every task starts in flight and settles exactly once. -/
inductive TStatus
  | pending
  | succeeded
  | failed
deriving DecidableEq, Repr

/-- Simulated bytes added to one file per 250 ms tick:
`estimatedBandwidth = 3000000 / filesToUpload.length`,
`bytesPerTick = estimatedBandwidth * 250 / 1000`. -/
def bytesPerTick (n : ℕ) : ℚ := 3000000 / (n : ℚ) * 250 / 1000

/-- Sum of the declared sizes (`filesToUpload.reduce((acc, f) => acc + f.size, 0)`). -/
def totalBytes (files : List UFile) : ℚ := (files.map (fun f => f.size)).sum

/-- State owned by `UploadProvider` plus the locals of one `uploadFiles` call.
`published` records every value delivered through `setProgress` by the publish
ticker and by the terminal `setProgress(100)`. -/
structure UState where
  uploading : Bool
  progress : ℤ
  activeGalleryId : Option String
  fileProgress : List ℚ
  status : List TStatus
  outcomes : List (Option (Option String × Option String))
  errors : List String
  finalized : Bool
  alerted : Option (List String)
  published : List ℤ
deriving DecidableEq, Repr

/-- True when `Promise.all` has resolved: every task reached a terminal status. -/
def allSettled (s : UState) : Bool := s.status.all (fun st => st ≠ TStatus.pending)

/-- Every task failed. -/
def allFailed (s : UState) : Bool := s.status.all (fun st => st = TStatus.failed)

/-- Aggregate percentage computed by the publish ticker:
`totalBytes > 0 ? Math.round(totalUploaded / totalBytes * 100) : 0`. -/
def pctOf (files : List UFile) (uploaded : ℚ) : ℤ :=
  if 0 < totalBytes files then jsRound (uploaded / totalBytes files * 100) else 0

def pct (files : List UFile) (s : UState) : ℤ := pctOf files s.fileProgress.sum

def unknownErrS : String := "Unknown error"

def colonSpS : String := ": "

def emptyS : String := ""

/-- Message recorded for a failed task: the store error if the object-store
write failed, otherwise the insert error (`err.message || 'Unknown error'`). -/
def emsg (se de : Option String) : String :=
  let m := match se with
    | some m => m
    | none => de.getD emptyS
  if m = emptyS then unknownErrS else m

/-- Events of one upload batch:
* `simTick i` — the per-file simulation interval of task `i` fires;
* `uiTick` — the publish interval fires (`setProgress(Math.min(99, percentage))`);
* `resolve i se de` — task `i`'s transport settles; `se` is the object-store
  error, `de` the metadata-insert error (`none` = success);
* `finalize` — the `finally` block after `Promise.all` (`clearInterval`,
  `setProgress(100)`, consolidated alert);
* `reset` — the delayed `setTimeout` clearing the provider state. -/
inductive UEvent
  | simTick (i : ℕ)
  | uiTick
  | resolve (i : ℕ) (se de : Option String)
  | finalize
  | reset
deriving DecidableEq, Repr

def stepU (files : List UFile) (s : UState) : UEvent → UState
  | UEvent.simTick i =>
    if i < files.length ∧ s.status.getD i TStatus.pending = TStatus.pending then
      if s.fileProgress.getD i 0 < (files.getD i default).size * (9 / 10) then
        { s with fileProgress :=
            s.fileProgress.set i (s.fileProgress.getD i 0 + bytesPerTick files.length) }
      else s
    else s
  | UEvent.uiTick =>
    if s.finalized then s
    else
      { s with progress := min 99 (pct files s),
               published := s.published ++ [min 99 (pct files s)] }
  | UEvent.resolve i se de =>
    if i < files.length ∧ s.status.getD i TStatus.pending = TStatus.pending then
      { s with
        status := s.status.set i
          (if se = none ∧ de = none then TStatus.succeeded else TStatus.failed),
        outcomes := s.outcomes.set i (some (se, de)),
        errors := s.errors ++
          (if se = none ∧ de = none then []
           else [(files.getD i default).name ++ colonSpS ++ emsg se de]),
        fileProgress := s.fileProgress.set i (files.getD i default).size }
    else s
  | UEvent.finalize =>
    if s.finalized = false ∧ allSettled s = true then
      { s with progress := 100,
               published := s.published ++ [100],
               alerted := if s.errors = [] then none else some s.errors,
               finalized := true }
    else s
  | UEvent.reset =>
    if s.finalized = true ∧ s.uploading = true then
      { s with uploading := false, activeGalleryId := none, progress := 0,
               fileProgress := [] }
    else s

/-- State right after an accepted `uploadFiles` call: running flag up, progress
published as 0, one progress cell and one pending task per file. -/
def initU (g : String) (files : List UFile) : UState :=
  { uploading := true
    progress := 0
    activeGalleryId := some g
    fileProgress := List.replicate files.length 0
    status := List.replicate files.length TStatus.pending
    outcomes := List.replicate files.length none
    errors := []
    finalized := false
    alerted := none
    published := [0] }

/-- Run one upload batch from submission over an arbitrary interleaving. -/
def runU (g : String) (files : List UFile) (t : List UEvent) : UState :=
  t.foldl (stepU files) (initU g files)

inductive SubmitResult
  | started
  | alreadyRunning
deriving DecidableEq, Repr

/-- The guard at the top of `uploadFiles`: a second call while `uploading` is
set alerts and returns before touching any state. -/
def submitU (s : UState) (g : String) (files : List UFile) : UState × SubmitResult :=
  if s.uploading then (s, SubmitResult.alreadyRunning) else (initU g files, SubmitResult.started)

/-! ## List helper lemmas -/

theorem getD_set_self {α : Type} (l : List α) (i : ℕ) (a d : α) (h : i < l.length) :
    (l.set i a).getD i d = a := by
  simp [List.getD_eq_getElem?_getD, List.getElem?_set_self, h]

theorem getD_set_ne {α : Type} (l : List α) (i j : ℕ) (a d : α) (h : i ≠ j) :
    (l.set i a).getD j d = l.getD j d := by
  simp [List.getD_eq_getElem?_getD, List.getElem?_set_ne h]

theorem getD_replicate_self {α : Type} (n i : ℕ) (x : α) :
    (List.replicate n x).getD i x = x := by
  induction n generalizing i with
  | zero => simp [List.getD_eq_getElem?_getD]
  | succ n ih =>
    cases i with
    | zero => simp [List.getD_eq_getElem?_getD]
    | succ i =>
      simp only [List.replicate_succ, List.getD_eq_getElem?_getD, List.getElem?_cons_succ]
      simp only [List.getD_eq_getElem?_getD] at ih
      exact ih i

theorem sum_set_q (l : List ℚ) (i : ℕ) (a : ℚ) (h : i < l.length) :
    (l.set i a).sum = l.sum - l.getD i 0 + a := by
  induction l generalizing i with
  | nil => simp at h
  | cons x xs ih =>
    cases i with
    | zero => simp [List.getD_eq_getElem?_getD]; ring
    | succ i =>
      have hi : i < xs.length := Nat.lt_of_succ_lt_succ h
      have hset : (x :: xs).set (i + 1) a = x :: xs.set i a := rfl
      have hgd : (x :: xs).getD (i + 1) 0 = xs.getD i 0 := by
        simp [List.getD_eq_getElem?_getD]
      rw [hset, List.sum_cons, List.sum_cons, ih i hi, hgd]
      ring

theorem foldl_inv {σ ε : Type} {P : σ → Prop} {f : σ → ε → σ}
    (hstep : ∀ s e, P s → P (f s e)) :
    ∀ (t : List ε) (s : σ), P s → P (t.foldl f s)
  | [], _, hs => hs
  | e :: t, s, hs => foldl_inv hstep t (f s e) (hstep s e hs)

theorem chain_append_le (l : List ℤ) (x : ℤ) (hc : List.Chain' (· ≤ ·) l)
    (hb : ∀ v ∈ l, v ≤ x) : List.Chain' (· ≤ ·) (l ++ [x]) := by
  induction l with
  | nil => simp
  | cons a l ih =>
    cases l with
    | nil =>
      simp only [List.cons_append, List.nil_append]
      exact List.Chain'.cons (hb a (by simp)) (by simp)
    | cons b l =>
      have hab : a ≤ b := (List.chain'_cons.mp hc).1
      have := ih (List.chain'_cons.mp hc).2 (fun v hv => hb v (by simp [hv]))
      exact List.chain'_cons.mpr ⟨hab, this⟩

/-! ## Upload invariants -/

/-- Invariant of every reachable upload-batch state. -/
structure UMaster (files : List UFile) (s : UState) : Prop where
  statusLen : s.status.length = files.length
  outLen : s.outcomes.length = files.length
  fpLen : s.finalized = false → s.fileProgress.length = files.length
  runFlag : s.finalized = false → s.uploading = true
  progCap : s.finalized = false → s.progress ≤ 99
  finSettled : s.finalized = true → allSettled s = true
  errFail : s.errors = [] → ∀ i, s.status.getD i TStatus.pending ≠ TStatus.failed
  alertNone : s.finalized = false → s.alerted = none
  alertAll : s.finalized = true →
      (s.errors = [] ∧ s.alerted = none) ∨ s.alerted = some s.errors
  succIff : ∀ i, s.status.getD i TStatus.pending = TStatus.succeeded ↔
      s.outcomes.getD i none = some (none, none)
  failRec : ∀ i, i < files.length → s.status.getD i TStatus.pending = TStatus.failed →
      ∃ se de, s.outcomes.getD i none = some (se, de) ∧ ¬(se = none ∧ de = none) ∧
        ((files.getD i default).name ++ colonSpS ++ emsg se de) ∈ s.errors

theorem allSettled_no_pending {s : UState} (h : allSettled s = true) (i : ℕ)
    (hi : i < s.status.length) : s.status.getD i TStatus.pending ≠ TStatus.pending := by
  have hm : s.status.getD i TStatus.pending ∈ s.status := by
    rw [List.getD_eq_getElem _ _ hi]
    exact List.getElem_mem _
  have := (List.all_eq_true.mp h) _ hm
  simpa using this

theorem umaster_init (g : String) (files : List UFile) : UMaster files (initU g files) :=
  { statusLen := by simp [initU]
    outLen := by simp [initU]
    fpLen := fun _ => by simp [initU]
    runFlag := fun _ => rfl
    progCap := fun _ => by norm_num [initU]
    finSettled := fun h => by simp [initU] at h
    errFail := fun _ i => by simp [initU, getD_replicate_self]
    alertNone := fun _ => rfl
    alertAll := fun h => by simp [initU] at h
    succIff := fun i => by simp [initU, getD_replicate_self]
    failRec := fun i _ h => by simp [initU, getD_replicate_self] at h }

theorem stepU_master {files : List UFile} {s : UState} (hm : UMaster files s) (e : UEvent) :
    UMaster files (stepU files s e) := by
  cases e with
  | simTick i =>
    by_cases hg : i < files.length ∧ s.status.getD i TStatus.pending = TStatus.pending
    · simp only [stepU]
      rw [if_pos hg]
      by_cases hc : s.fileProgress.getD i 0 < (files.getD i default).size * (9 / 10)
      · rw [if_pos hc]
        exact { hm with fpLen := fun hf => by simp [hm.fpLen hf] }
      · rw [if_neg hc]; exact hm
    · simp only [stepU]; rw [if_neg hg]; exact hm
  | uiTick =>
    by_cases hf : s.finalized = true
    · simp only [stepU]; rw [if_pos hf]; exact hm
    · simp only [stepU]; rw [if_neg hf]
      exact { hm with progCap := fun _ => min_le_left _ _ }
  | resolve i se de =>
    by_cases hg : i < files.length ∧ s.status.getD i TStatus.pending = TStatus.pending
    · simp only [stepU]
      rw [if_pos hg]
      obtain ⟨hi, hp⟩ := hg
      have hil : i < s.status.length := by rw [hm.statusLen]; exact hi
      have hio : i < s.outcomes.length := by rw [hm.outLen]; exact hi
      have hnotfin : s.finalized = true → False := fun hfin =>
        absurd hp (allSettled_no_pending (hm.finSettled hfin) i hil)
      by_cases hok : se = none ∧ de = none
      · rw [if_pos hok, if_pos hok]
        refine
          { statusLen := by simp [hm.statusLen]
            outLen := by simp [hm.outLen]
            fpLen := fun hf => by simp [hm.fpLen hf]
            runFlag := hm.runFlag
            progCap := hm.progCap
            finSettled := fun hfin => (hnotfin hfin).elim
            errFail := ?_
            alertNone := hm.alertNone
            alertAll := fun hfin => (hnotfin hfin).elim
            succIff := ?_
            failRec := ?_ }
        · intro he j
          rw [List.append_nil] at he
          by_cases hji : i = j
          · subst hji
            rw [getD_set_self _ _ _ _ hil]
            simp
          · rw [getD_set_ne _ _ _ _ _ hji]
            exact hm.errFail he j
        · intro j
          by_cases hji : i = j
          · subst hji
            rw [getD_set_self _ _ _ _ hil, getD_set_self _ _ _ _ hio]
            constructor
            · intro _
              rw [hok.1, hok.2]
            · intro _
              rfl
          · rw [getD_set_ne _ _ _ _ _ hji, getD_set_ne _ _ _ _ _ hji]
            exact hm.succIff j
        · intro j hj hst
          by_cases hji : i = j
          · subst hji
            rw [getD_set_self _ _ _ _ hil] at hst
            exact absurd hst (by simp)
          · rw [getD_set_ne _ _ _ _ _ hji] at hst
            obtain ⟨se', de', h1, h2, h3⟩ := hm.failRec j hj hst
            refine ⟨se', de', ?_, h2, ?_⟩
            · rw [getD_set_ne _ _ _ _ _ hji]
              exact h1
            · rw [List.append_nil]
              exact h3
      · rw [if_neg hok, if_neg hok]
        refine
          { statusLen := by simp [hm.statusLen]
            outLen := by simp [hm.outLen]
            fpLen := fun hf => by simp [hm.fpLen hf]
            runFlag := hm.runFlag
            progCap := hm.progCap
            finSettled := fun hfin => (hnotfin hfin).elim
            errFail := fun he => absurd he (by simp)
            alertNone := hm.alertNone
            alertAll := fun hfin => (hnotfin hfin).elim
            succIff := ?_
            failRec := ?_ }
        · intro j
          by_cases hji : i = j
          · subst hji
            rw [getD_set_self _ _ _ _ hil, getD_set_self _ _ _ _ hio]
            constructor
            · intro h
              exact absurd h (by simp)
            · intro h
              simp only [Option.some.injEq, Prod.mk.injEq] at h
              exact (hok ⟨h.1, h.2⟩).elim
          · rw [getD_set_ne _ _ _ _ _ hji, getD_set_ne _ _ _ _ _ hji]
            exact hm.succIff j
        · intro j hj hst
          by_cases hji : i = j
          · subst hji
            refine ⟨se, de, ?_, hok, ?_⟩
            · rw [getD_set_self _ _ _ _ hio]
            · exact List.mem_append_right _ (by simp)
          · rw [getD_set_ne _ _ _ _ _ hji] at hst
            obtain ⟨se', de', h1, h2, h3⟩ := hm.failRec j hj hst
            refine ⟨se', de', ?_, h2, List.mem_append_left _ h3⟩
            rw [getD_set_ne _ _ _ _ _ hji]
            exact h1
    · simp only [stepU]; rw [if_neg hg]; exact hm
  | finalize =>
    by_cases hg : s.finalized = false ∧ allSettled s = true
    · simp only [stepU]
      rw [if_pos hg]
      refine
        { statusLen := hm.statusLen
          outLen := hm.outLen
          fpLen := fun hf => by simp at hf
          runFlag := fun hf => by simp at hf
          progCap := fun hf => by simp at hf
          finSettled := fun _ => by simpa [allSettled] using hg.2
          errFail := hm.errFail
          alertNone := fun hf => by simp at hf
          alertAll := fun _ => ?_
          succIff := hm.succIff
          failRec := hm.failRec }
      by_cases he : s.errors = []
      · exact Or.inl ⟨he, by simp [he]⟩
      · exact Or.inr (by simp [he])
    · simp only [stepU]; rw [if_neg hg]; exact hm
  | reset =>
    by_cases hg : s.finalized = true ∧ s.uploading = true
    · simp only [stepU]
      rw [if_pos hg]
      refine
        { statusLen := hm.statusLen
          outLen := hm.outLen
          fpLen := fun hf => by rw [hg.1] at hf; simp at hf
          runFlag := fun hf => by rw [hg.1] at hf; simp at hf
          progCap := fun _ => by norm_num
          finSettled := fun _ => by simpa [allSettled] using hm.finSettled hg.1
          errFail := hm.errFail
          alertNone := fun hf => by rw [hg.1] at hf; simp at hf
          alertAll := fun _ => hm.alertAll hg.1
          succIff := hm.succIff
          failRec := hm.failRec }
    · simp only [stepU]; rw [if_neg hg]; exact hm

theorem runU_master (g : String) (files : List UFile) (t : List UEvent) :
    UMaster files (runU g files t) := by
  show UMaster files (List.foldl (stepU files) (initU g files) t)
  exact @foldl_inv UState UEvent (UMaster files) (stepU files)
    (fun _ e hs => stepU_master hs e) t (initU g files) (umaster_init g files)

/-! ## Simulated progress bounds and publish monotonicity (conditioned on the
per-tick increment being at most a tenth of every file's size) -/

theorem getD_mem {α : Type} (l : List α) (i : ℕ) (d : α) (h : i < l.length) :
    l.getD i d ∈ l := by
  rw [List.getD_eq_getElem _ _ h]
  exact List.getElem_mem _

theorem bytesPerTick_nonneg (n : ℕ) : 0 ≤ bytesPerTick n := by
  unfold bytesPerTick
  positivity

theorem pctOf_mono (files : List UFile) {a b : ℚ} (h : a ≤ b) :
    pctOf files a ≤ pctOf files b := by
  unfold pctOf
  split
  · next hT =>
      refine jsRound_mono ?_
      refine mul_le_mul_of_nonneg_right ?_ (by norm_num)
      exact (div_le_div_iff_of_pos_right hT).mpr h
  · exact le_refl _

/-- Invariant giving C1 and C3: each task's accounted bytes stay below the file
size, and the published sequence is monotone. -/
structure UChain (files : List UFile) (s : UState) : Prop where
  fpBound : ∀ i, i < files.length → s.fileProgress.getD i 0 ≤ (files.getD i default).size
  chain : List.Chain' (· ≤ ·) s.published
  pubBound : s.finalized = false → ∀ v ∈ s.published, v ≤ min 99 (pct files s)

theorem uchain_init (g : String) (files : List UFile)
    (H : ∀ f ∈ files, 10 * bytesPerTick files.length ≤ f.size) :
    UChain files (initU g files) := by
  refine ⟨?_, ?_, ?_⟩
  · intro i hi
    have hf := H _ (getD_mem files i default hi)
    have hb := bytesPerTick_nonneg files.length
    have h0 : (List.replicate files.length (0:ℚ)).getD i 0 = 0 := getD_replicate_self _ _ _
    simp only [initU, h0]
    linarith
  · simp [initU]
  · intro _ v hv
    simp only [initU, List.mem_singleton] at hv
    subst hv
    have : (0:ℤ) ≤ pct files (initU g files) := by
      unfold pct pctOf
      split
      · next hT =>
          have : (List.replicate files.length (0:ℚ)).sum = 0 := by simp
          simp only [initU, this]
          rw [zero_div, zero_mul]
          unfold jsRound
          norm_num
      · exact le_refl _
    simp only [le_min_iff]
    constructor
    · norm_num
    · exact this

theorem finalized_false_of_pending {files : List UFile} {s : UState} (hm : UMaster files s)
    {i : ℕ} (hil : i < s.status.length)
    (hp : s.status.getD i TStatus.pending = TStatus.pending) : s.finalized = false := by
  cases hfin : s.finalized with
  | false => rfl
  | true => exact absurd hp (allSettled_no_pending (hm.finSettled hfin) i hil)

theorem stepU_chain {files : List UFile} {s : UState}
    (H : ∀ f ∈ files, 10 * bytesPerTick files.length ≤ f.size)
    (hm : UMaster files s) (hc : UChain files s) (e : UEvent) :
    UChain files (stepU files s e) := by
  cases e with
  | simTick i =>
    by_cases hg : i < files.length ∧ s.status.getD i TStatus.pending = TStatus.pending
    · simp only [stepU]
      rw [if_pos hg]
      obtain ⟨hi, hp⟩ := hg
      have hil : i < s.status.length := by rw [hm.statusLen]; exact hi
      have hffalse : s.finalized = false := finalized_false_of_pending hm hil hp
      have hfl : i < s.fileProgress.length := by rw [hm.fpLen hffalse]; exact hi
      by_cases hlt : s.fileProgress.getD i 0 < (files.getD i default).size * (9 / 10)
      · rw [if_pos hlt]
        have hfmem := H _ (getD_mem files i default hi)
        have hsum : (s.fileProgress.set i
            (s.fileProgress.getD i 0 + bytesPerTick files.length)).sum =
            s.fileProgress.sum + bytesPerTick files.length := by
          rw [sum_set_q _ _ _ hfl]
          ring
        refine ⟨?_, hc.chain, ?_⟩
        · intro j hj
          by_cases hji : i = j
          · subst hji
            rw [getD_set_self _ _ _ _ hfl]
            linarith
          · rw [getD_set_ne _ _ _ _ _ hji]
            exact hc.fpBound j hj
        · intro hf v hv
          have hold := hc.pubBound hffalse v hv
          have hbp := bytesPerTick_nonneg files.length
          have hmono : pctOf files s.fileProgress.sum ≤ pctOf files
              (s.fileProgress.set i
                (s.fileProgress.getD i 0 + bytesPerTick files.length)).sum :=
            pctOf_mono files (by rw [hsum]; linarith)
          exact le_trans hold (min_le_min (le_refl 99) hmono)
      · rw [if_neg hlt]; exact hc
    · simp only [stepU]; rw [if_neg hg]; exact hc
  | uiTick =>
    by_cases hf : s.finalized = true
    · simp only [stepU]; rw [if_pos hf]; exact hc
    · simp only [stepU]; rw [if_neg hf]
      have hf0 : s.finalized = false := by
        cases hx : s.finalized with
        | false => rfl
        | true => exact absurd hx hf
      refine ⟨hc.fpBound, ?_, ?_⟩
      · exact chain_append_le _ _ hc.chain (hc.pubBound hf0)
      · intro _ v hv
        rcases List.mem_append.mp hv with hv | hv
        · exact hc.pubBound hf0 v hv
        · simp only [List.mem_singleton] at hv
          subst hv
          exact le_refl _
  | resolve i se de =>
    by_cases hg : i < files.length ∧ s.status.getD i TStatus.pending = TStatus.pending
    · simp only [stepU]
      rw [if_pos hg]
      obtain ⟨hi, hp⟩ := hg
      have hil : i < s.status.length := by rw [hm.statusLen]; exact hi
      have hffalse : s.finalized = false := finalized_false_of_pending hm hil hp
      have hfl : i < s.fileProgress.length := by rw [hm.fpLen hffalse]; exact hi
      have hsum : (s.fileProgress.set i (files.getD i default).size).sum =
          s.fileProgress.sum - s.fileProgress.getD i 0 + (files.getD i default).size :=
        sum_set_q _ _ _ hfl
      refine ⟨?_, hc.chain, ?_⟩
      · intro j hj
        by_cases hji : i = j
        · subst hji
          rw [getD_set_self _ _ _ _ hfl]
        · rw [getD_set_ne _ _ _ _ _ hji]
          exact hc.fpBound j hj
      · intro hf v hv
        have hold := hc.pubBound hffalse v hv
        have hcur := hc.fpBound i hi
        have hmono : pctOf files s.fileProgress.sum ≤ pctOf files
            (s.fileProgress.set i (files.getD i default).size).sum :=
          pctOf_mono files (by rw [hsum]; linarith)
        exact le_trans hold (min_le_min (le_refl 99) hmono)
    · simp only [stepU]; rw [if_neg hg]; exact hc
  | finalize =>
    by_cases hg : s.finalized = false ∧ allSettled s = true
    · simp only [stepU]
      rw [if_pos hg]
      refine ⟨hc.fpBound, ?_, ?_⟩
      · refine chain_append_le _ _ hc.chain ?_
        intro v hv
        have := hc.pubBound hg.1 v hv
        have h99 : min 99 (pct files s) ≤ 99 := min_le_left _ _
        linarith
      · intro hf
        simp at hf
    · simp only [stepU]; rw [if_neg hg]; exact hc
  | reset =>
    by_cases hg : s.finalized = true ∧ s.uploading = true
    · simp only [stepU]
      rw [if_pos hg]
      refine ⟨?_, hc.chain, ?_⟩
      · intro j hj
        have hfmem := H _ (getD_mem files j default hj)
        have hb := bytesPerTick_nonneg files.length
        have hnil : (([] : List ℚ)).getD j 0 = 0 := by simp [List.getD_eq_getElem?_getD]
        rw [hnil]
        linarith
      · intro hf
        rw [hg.1] at hf
        simp at hf
    · simp only [stepU]; rw [if_neg hg]; exact hc

theorem runU_chain (g : String) (files : List UFile) (t : List UEvent)
    (H : ∀ f ∈ files, 10 * bytesPerTick files.length ≤ f.size) :
    UChain files (runU g files t) := by
  show UChain files (List.foldl (stepU files) (initU g files) t)
  have hstep : ∀ s e, (UMaster files s ∧ UChain files s) →
      (UMaster files (stepU files s e) ∧ UChain files (stepU files s e)) :=
    fun s e hs => ⟨stepU_master hs.1 e, stepU_chain H hs.1 hs.2 e⟩
  exact (@foldl_inv UState UEvent (fun s => UMaster files s ∧ UChain files s) (stepU files)
    hstep t (initU g files) ⟨umaster_init g files, uchain_init g files H⟩).2

theorem runU_append (g : String) (files : List UFile) (t l : List UEvent) :
    runU g files (t ++ l) = l.foldl (stepU files) (runU g files t) := by
  unfold runU
  rw [List.foldl_append]

/-! ## Concrete upload batches used by counterexamples and witnesses -/

def gW : String := "g"

def nmA : String := "a"

def nmB : String := "b"

def eBoom : String := "boom"

/-- A 1 MB file next to a 100-byte file: `bytesPerTick = 375000` overshoots the
small file long before its transport resolves. -/
def filesC1 : List UFile := [⟨nmA, 1000000⟩, ⟨nmB, 100⟩]

def traceC1 : List UEvent :=
  [UEvent.simTick 0, UEvent.simTick 1, UEvent.uiTick,
   UEvent.resolve 1 none none, UEvent.uiTick]

/-- A single 100-byte file: one simulation tick adds 750000 bytes. -/
def filesC3 : List UFile := [⟨nmA, 100⟩]

/-- A single 10 MB file: ten times the 750000-byte tick fits in its size. -/
def filesBig : List UFile := [⟨nmA, 10000000⟩]

def traceBig : List UEvent :=
  [UEvent.simTick 0, UEvent.uiTick, UEvent.resolve 0 none none, UEvent.uiTick, UEvent.finalize]

/-- A single file whose store write fails. -/
def filesW2 : List UFile := [⟨nmA, 100⟩]

def tW2 : List UEvent := [UEvent.resolve 0 (some eBoom) none]

/-! ## Claims C1-C5 -/

/-- C1 (counterexample): the published aggregate progress is NOT non-decreasing.
With files of 1000000 and 100 bytes, one simulation tick per file accounts
375000 bytes to each; the publish tick delivers 75.  The small file's transport
then resolves and its accounted bytes snap DOWN from 375000 to its size 100,
so the next publish tick delivers 38 < 75. -/
theorem c1_published_progress_can_decrease :
    ¬ List.Chain' (· ≤ ·) ((runU gW filesC1 traceC1).published) := by
  have h : (runU gW filesC1 traceC1).published = [0, 75, 38] := by decide
  rw [h]
  simp [List.chain'_cons]

/-- C1 (amended): if every file's size is at least ten times the simulated
per-tick increment (`bytesPerTick = 750000 / n` bytes), the simulation can
never overshoot a file's size, the snap on resolution never lowers the
aggregate, and every value delivered to observers — each publish tick and the
final forced 100 — is greater than or equal to every previously delivered
value. -/
theorem c1_published_monotone_when_tick_small (g : String) (files : List UFile)
    (t : List UEvent) (H : ∀ f ∈ files, 10 * bytesPerTick files.length ≤ f.size) :
    List.Chain' (· ≤ ·) ((runU g files t).published) :=
  (runU_chain g files t H).chain

theorem c1_witness :
    List.Chain' (· ≤ ·) ((runU gW filesBig traceBig).published) :=
  c1_published_monotone_when_tick_small gW filesBig traceBig (by decide)

/-- C3 (counterexample): a task's accounted bytes CAN exceed the file's size.
For a single 100-byte file, the first simulation tick fires while the
accounted bytes (0) are below 90% of the size, and adds the full
`bytesPerTick = 750000`, far past `sizeBytes = 100`. -/
theorem c3_bytesAccounted_can_exceed_size :
    (filesC3.getD 0 default).size <
      (runU gW filesC3 [UEvent.simTick 0]).fileProgress.getD 0 0 := by
  decide

/-- C3 (amended): provided every file's size is at least ten times the
per-tick simulated increment, a task's accounted bytes never exceed the
file's declared size at any observation point (after any interleaving of
simulation ticks and the final snap on transport resolution). -/
theorem c3_bytesAccounted_bounded_when_tick_small (g : String) (files : List UFile)
    (t : List UEvent) (H : ∀ f ∈ files, 10 * bytesPerTick files.length ≤ f.size)
    (i : ℕ) (hi : i < files.length) :
    (runU g files t).fileProgress.getD i 0 ≤ (files.getD i default).size :=
  (runU_chain g files t H).fpBound i hi

theorem c3_witness :
    (runU gW filesBig traceBig).fileProgress.getD 0 0 ≤ (filesBig.getD 0 default).size :=
  c3_bytesAccounted_bounded_when_tick_small gW filesBig traceBig (by decide) 0 (by decide)

/-- C2: the published percentage is capped at 99 (hence strictly below 100)
whenever some task is still pending; once every task has settled, the
`finally` block forces `displayPercent = 100` — even when every task failed,
in which case the recorded error list is non-empty — and the delayed reset
then clears the running flag, so the batch never reports running forever. -/
theorem c2_terminal_forced_hundred (g : String) (files : List UFile) (t : List UEvent)
    (h1 : allSettled (runU g files t) = true)
    (h2 : (runU g files t).finalized = false)
    (hn : 0 < files.length) :
    (runU g files (t ++ [UEvent.finalize])).progress = 100 ∧
    (allFailed (runU g files t) = true →
      (runU g files (t ++ [UEvent.finalize])).errors ≠ []) ∧
    (runU g files (t ++ [UEvent.finalize, UEvent.reset])).uploading = false ∧
    (∀ p : List UEvent, allSettled (runU g files p) = false →
      (runU g files p).progress < 100) := by
  have hmm := runU_master g files t
  have hstep : stepU files (runU g files t) UEvent.finalize =
      { runU g files t with
        progress := 100
        published := (runU g files t).published ++ [100]
        alerted := if (runU g files t).errors = [] then none else some (runU g files t).errors
        finalized := true } := by
    simp only [stepU]
    rw [if_pos ⟨h2, h1⟩]
  refine ⟨?_, ?_, ?_, ?_⟩
  · rw [runU_append]
    simp only [List.foldl]
    rw [hstep]
  · intro hfail
    rw [runU_append]
    simp only [List.foldl]
    rw [hstep]
    have hsl : 0 < (runU g files t).status.length := by rw [hmm.statusLen]; exact hn
    have h0 : (runU g files t).status.getD 0 TStatus.pending = TStatus.failed := by
      have hmem : (runU g files t).status.getD 0 TStatus.pending ∈ (runU g files t).status :=
        getD_mem _ _ _ hsl
      have := (List.all_eq_true.mp hfail) _ hmem
      simpa using this
    intro hnil
    exact (hmm.errFail hnil 0) h0
  · rw [runU_append]
    simp only [List.foldl]
    rw [hstep]
    have hup : (runU g files t).uploading = true := hmm.runFlag h2
    simp only [stepU]
    rw [if_pos (And.intro (by simp) hup)]
  · intro p hns
    have hmp := runU_master g files p
    have hfin : (runU g files p).finalized = false := by
      cases hx : (runU g files p).finalized with
      | false => rfl
      | true => rw [hmp.finSettled hx] at hns; exact absurd hns (by simp)
    have := hmp.progCap hfin
    omega

theorem c2_witness :
    (runU gW filesW2 (tW2 ++ [UEvent.finalize])).progress = 100 ∧
    (runU gW filesW2 (tW2 ++ [UEvent.finalize])).errors ≠ [] ∧
    (runU gW filesW2 (tW2 ++ [UEvent.finalize, UEvent.reset])).uploading = false := by
  refine ⟨(c2_terminal_forced_hundred gW filesW2 tW2 (by decide) (by decide) (by decide)).1,
    (c2_terminal_forced_hundred gW filesW2 tW2 (by decide) (by decide) (by decide)).2.1
      (by decide),
    (c2_terminal_forced_hundred gW filesW2 tW2 (by decide) (by decide) (by decide)).2.2.1⟩

/-- C4: a task is `Succeeded` exactly when both the object-store write and the
metadata insert succeeded; when either failed the task is `Failed` and an
error naming the file is recorded; a still-pending task can always settle
afterwards regardless of earlier failures (no fail-fast); no alert is shown
before the batch settles, and the single consolidated alert shown at
finalization carries the full error list, including an entry for every failed
file. -/
theorem c4_both_must_succeed_and_consolidated_alert (g : String) (files : List UFile)
    (t : List UEvent) (i : ℕ) (hi : i < files.length) :
    ((runU g files t).status.getD i TStatus.pending = TStatus.succeeded ↔
      (runU g files t).outcomes.getD i none = some (none, none)) ∧
    ((runU g files t).status.getD i TStatus.pending = TStatus.failed →
      ∃ se de, (runU g files t).outcomes.getD i none = some (se, de) ∧
        ¬(se = none ∧ de = none) ∧
        ((files.getD i default).name ++ colonSpS ++ emsg se de) ∈ (runU g files t).errors) ∧
    ((runU g files t).status.getD i TStatus.pending = TStatus.pending →
      ∀ se de, (runU g files (t ++ [UEvent.resolve i se de])).status.getD i TStatus.pending ≠
        TStatus.pending) ∧
    ((runU g files t).finalized = false → (runU g files t).alerted = none) ∧
    ((runU g files t).finalized = true →
      ((runU g files t).errors = [] ∧ (runU g files t).alerted = none) ∨
        (runU g files t).alerted = some (runU g files t).errors) ∧
    ((runU g files t).finalized = true →
      (runU g files t).status.getD i TStatus.pending = TStatus.failed →
      ∃ l, (runU g files t).alerted = some l ∧
        ∃ se de, ¬(se = none ∧ de = none) ∧
          ((files.getD i default).name ++ colonSpS ++ emsg se de) ∈ l) := by
  have hmm := runU_master g files t
  refine ⟨hmm.succIff i, hmm.failRec i hi, ?_, hmm.alertNone, hmm.alertAll, ?_⟩
  · intro hp se de
    rw [runU_append]
    simp only [List.foldl]
    have hstep : stepU files (runU g files t) (UEvent.resolve i se de) =
        { runU g files t with
          status := (runU g files t).status.set i
            (if se = none ∧ de = none then TStatus.succeeded else TStatus.failed)
          outcomes := (runU g files t).outcomes.set i (some (se, de))
          errors := (runU g files t).errors ++
            (if se = none ∧ de = none then []
             else [(files.getD i default).name ++ colonSpS ++ emsg se de])
          fileProgress := (runU g files t).fileProgress.set i (files.getD i default).size } := by
      simp only [stepU]
      rw [if_pos ⟨hi, hp⟩]
    rw [hstep]
    have hil : i < (runU g files t).status.length := by rw [hmm.statusLen]; exact hi
    rw [getD_set_self _ _ _ _ hil]
    by_cases hok : se = none ∧ de = none
    · rw [if_pos hok]
      simp
    · rw [if_neg hok]
      simp
  · intro hfin hfail
    rcases hmm.alertAll hfin with ⟨he, _⟩ | halr
    · exact absurd hfail (hmm.errFail he i)
    · obtain ⟨se, de, _, h2, h3⟩ := hmm.failRec i hi hfail
      exact ⟨(runU g files t).errors, halr, se, de, h2, h3⟩

theorem c4_witness :
    ∃ se de, (runU gW filesW2 tW2).outcomes.getD 0 none = some (se, de) ∧
      ¬(se = none ∧ de = none) ∧
      ((filesW2.getD 0 default).name ++ colonSpS ++ emsg se de) ∈ (runU gW filesW2 tW2).errors :=
  (c4_both_must_succeed_and_consolidated_alert gW filesW2 tW2 0 (by decide)).2.1 (by decide)

/-- C5: while an upload batch is active (`uploading = true`) a second submit
call is rejected as already running and returns the state completely
unchanged: progress, active gallery id, file progress map and error list of
the active batch are untouched. -/
theorem c5_second_submit_rejected_state_untouched (s : UState) (g2 : String)
    (files2 : List UFile) (h : s.uploading = true) :
    submitU s g2 files2 = (s, SubmitResult.alreadyRunning) ∧
    (submitU s g2 files2).1.progress = s.progress ∧
    (submitU s g2 files2).1.activeGalleryId = s.activeGalleryId ∧
    (submitU s g2 files2).1.fileProgress = s.fileProgress ∧
    (submitU s g2 files2).1.errors = s.errors := by
  have he : submitU s g2 files2 = (s, SubmitResult.alreadyRunning) := by
    unfold submitU
    rw [if_pos h]
  exact ⟨he, by rw [he], by rw [he], by rw [he], by rw [he]⟩

theorem c5_witness :
    submitU (runU gW filesW2 []) gW filesC1 =
      (runU gW filesW2 [], SubmitResult.alreadyRunning) :=
  (c5_second_submit_rejected_state_untouched (runU gW filesW2 []) gW filesC1 (by decide)).1

/-! ## Bulk-download batch engine (src/pages/ClientGallery.tsx, handleDownloadAll) -/

def slashS : String := "/"

def fileDashS : String := "file-"

/-- One gallery file handed to `handleDownloadAll`. -/
structure DFile where
  id : String
  file_path : String
  file_url : String
deriving DecidableEq, Inhabited, Repr

def slashC : Char := '/'

/-- JavaScript `String.prototype.split('/')` on the character list: cut at
every slash, keeping empty segments (`"a/".split('/') = ["a", ""]`,
`"".split('/') = [""]`). -/
def splitOnSlash : List Char → List Char → List (List Char)
  | [], acc => [acc.reverse]
  | c :: cs, acc =>
    if c = slashC then acc.reverse :: splitOnSlash cs [] else splitOnSlash cs (c :: acc)

/-- Zip entry name: `file.file_path.split('/').pop() || `file-${file.id}``
(the last path segment, or the fallback when that segment is empty). -/
def basename (f : DFile) : String :=
  if ((splitOnSlash f.file_path.data []).getLastD []).isEmpty then fileDashS ++ f.id
  else String.mk ((splitOnSlash f.file_path.data []).getLastD [])

/-- Model of `zip.file(name, blob)`: replace the entry at that name, else append it. -/
def upsert : List (String × String) → String → String → List (String × String)
  | [], k, v => [(k, v)]
  | p :: rest, k, v => if p.1 = k then (k, v) :: rest else p :: upsert rest k v

def lookupZ (z : List (String × String)) (k : String) : Option String :=
  (z.find? (fun p => p.1 = k)).map Prod.snd

/-- How one fetch promise settles: payload fully received and read (`ok`),
rejected or non-ok response (`fail`), or rejected with `AbortError` after the
shared signal fired (`aborted`). -/
inductive FetchRes
  | ok (blob : String)
  | fail
  | aborted
deriving DecidableEq, Repr

/-- State of one `handleDownloadAll` run.  `workers` are the `min 3 n`
sequential `next()` chains started by the initial loop; `some i` means that
chain is awaiting the fetch of file index `i`.  `fetchStarted` records every
index whose fetch was actually begun, `passedOver` every index dequeued after
cancellation without being fetched. -/
structure DState where
  queue : List ℕ
  workers : List (Option ℕ)
  fetchStarted : List ℕ
  passedOver : List ℕ
  succ : List (ℕ × String)
  failedLog : List ℕ
  processed : ℕ
  zip : List (String × String)
  aborted : Bool
  generated : Option (List (String × String))
  saved : Option (List (String × String))
  finished : Bool
deriving DecidableEq, Repr

/-- Batch events: a worker's fetch settles; the user cancels (the shared
`AbortController` fires); the post-`Promise.all` abort check plus
`zip.generateAsync`; the pre-save abort check plus `saveAs`. -/
inductive DEvent
  | complete (w : ℕ) (r : FetchRes)
  | abort
  | generate
  | save
deriving DecidableEq, Repr

/-- Body of `processFile` after the fetch settles: on success insert the blob
under the basename of the storage path; on failure log and skip; an
`AbortError` is filtered from the log; `finally` always counts the file. -/
def completeFetch (files : List DFile) (s : DState) (i : ℕ) : FetchRes → DState
  | FetchRes.ok blob =>
    { s with
      zip := upsert s.zip (basename (files.getD i default)) blob
      succ := s.succ ++ [(i, blob)]
      processed := s.processed + 1 }
  | FetchRes.fail =>
    { s with
      failedLog := s.failedLog ++ [i]
      processed := s.processed + 1 }
  | FetchRes.aborted => { s with processed := s.processed + 1 }

/-- The worker's recursive `next()`: dequeue the head and fetch it; once the
signal is aborted, `processFile` returns at its entry check, so the chain
drains the whole queue without starting any fetch. -/
def takeNext (s : DState) (w : ℕ) : DState :=
  if s.aborted then
    { s with
      workers := s.workers.set w none
      passedOver := s.passedOver ++ s.queue
      queue := [] }
  else
    match s.queue with
    | [] => { s with workers := s.workers.set w none }
    | j :: rest =>
      { s with
        workers := s.workers.set w (some j)
        queue := rest
        fetchStarted := s.fetchStarted ++ [j] }

def stepD (files : List DFile) (s : DState) : DEvent → DState
  | DEvent.complete w r =>
    match s.workers.getD w none with
    | none => s
    | some i =>
      if r = FetchRes.aborted ∧ s.aborted = false then s
      else takeNext (completeFetch files s i r) w
  | DEvent.abort => { s with aborted := true }
  | DEvent.generate =>
    if s.queue = [] ∧ s.workers.all (fun o => o = none) ∧ s.finished = false ∧
        s.generated = none then
      if s.aborted then { s with finished := true } else { s with generated := some s.zip }
    else s
  | DEvent.save =>
    match s.generated with
    | none => s
    | some z =>
      if s.finished = true then s
      else if s.aborted then { s with finished := true }
      else
        { s with
          saved := some z
          finished := true }

/-- State after the initial loop started `min 3 n` chains, each having
synchronously dequeued one file and begun its fetch. -/
def initD (files : List DFile) : DState :=
  { queue := (List.range files.length).drop (min 3 files.length)
    workers := (List.range (min 3 files.length)).map some
    fetchStarted := (List.range files.length).take (min 3 files.length)
    passedOver := []
    succ := []
    failedLog := []
    processed := 0
    zip := []
    aborted := false
    generated := none
    saved := none
    finished := false }

/-- Run one bulk-download batch over an arbitrary interleaving. -/
def runD (files : List DFile) (t : List DEvent) : DState :=
  t.foldl (stepD files) (initD files)

/-! ## Zip map lemmas -/

theorem lookupZ_upsert_self (z : List (String × String)) (k v : String) :
    lookupZ (upsert z k v) k = some v := by
  induction z with
  | nil => simp [upsert, lookupZ]
  | cons p rest ih =>
    by_cases hp : p.1 = k
    · simp [upsert, hp, lookupZ]
    · simp only [upsert, if_neg hp]
      simp only [lookupZ] at ih ⊢
      rw [List.find?_cons_of_neg _ (by simp [hp])]
      exact ih

theorem lookupZ_upsert_ne (z : List (String × String)) (k v b : String) (h : b ≠ k) :
    lookupZ (upsert z k v) b = lookupZ z b := by
  induction z with
  | nil =>
    simp only [upsert, lookupZ]
    rw [List.find?_cons_of_neg _ (by simp [Ne.symm h])]
  | cons p rest ih =>
    by_cases hp : p.1 = k
    · simp only [upsert, if_pos hp, lookupZ]
      rw [List.find?_cons_of_neg _ (by simp [Ne.symm h]),
        List.find?_cons_of_neg _ (by simp [hp, Ne.symm h])]
    · simp only [upsert, if_neg hp, lookupZ]
      by_cases hb : p.1 = b
      · rw [List.find?_cons_of_pos _ (by simp [hb]), List.find?_cons_of_pos _ (by simp [hb])]
      · rw [List.find?_cons_of_neg _ (by simp [hb]), List.find?_cons_of_neg _ (by simp [hb])]
        exact ih

theorem keys_upsert (z : List (String × String)) (k v : String) :
    (upsert z k v).map Prod.fst =
      if k ∈ z.map Prod.fst then z.map Prod.fst else z.map Prod.fst ++ [k] := by
  induction z with
  | nil => simp [upsert]
  | cons p rest ih =>
    by_cases hp : p.1 = k
    · simp [upsert, hp]
    · simp only [upsert, if_neg hp, List.map_cons, ih]
      by_cases hk : k ∈ rest.map Prod.fst
      · rw [if_pos hk, if_pos (by simp [hk])]
      · have hnot : k ∉ p.1 :: rest.map Prod.fst := by
          intro hmem
          rcases List.mem_cons.mp hmem with h1 | h2
          · exact hp h1.symm
          · exact hk h2
        rw [if_neg hk, if_neg hnot, List.cons_append]

theorem nodup_keys_upsert (z : List (String × String)) (k v : String)
    (h : (z.map Prod.fst).Nodup) : ((upsert z k v).map Prod.fst).Nodup := by
  rw [keys_upsert]
  split
  · exact h
  · next hk =>
    rw [List.nodup_append]
    refine ⟨h, List.nodup_singleton _, ?_⟩
    intro a ha hb
    simp only [List.mem_singleton] at hb
    subst hb
    exact hk ha

/-! ## Download invariants -/

theorem all_none_getD {ws : List (Option ℕ)} (h : ws.all (fun o => o = none) = true)
    (w : ℕ) : ws.getD w none = none := by
  cases hgw : ws.getD w none with
  | none => rfl
  | some i =>
    by_cases hlt : w < ws.length
    · have hmem : some i ∈ ws := by
        rw [List.getD_eq_getElem _ _ hlt] at hgw
        rw [← hgw]
        exact List.getElem_mem _
      have := (List.all_eq_true.mp h) _ hmem
      simp at this
    · rw [List.getD_eq_default _ _ (Nat.le_of_not_lt hlt)] at hgw
      exact absurd hgw (by simp)

/-- Invariant of every reachable bulk-download state. -/
structure DInv (files : List DFile) (s : DState) : Prop where
  wlen : s.workers.length = min 3 files.length
  part : s.fetchStarted ++ s.passedOver ++ s.queue = List.range files.length
  noPass : s.aborted = false → s.passedOver = []
  genIdle : s.generated ≠ none →
      s.queue = [] ∧ s.workers.all (fun o => o = none) = true
  savedGen : s.saved ≠ none → s.generated ≠ none
  zipInv : ∀ b, lookupZ s.zip b =
      ((s.succ.filter (fun p => basename (files.getD p.1 default) = b)).getLast?).map Prod.snd
  keyNodup : (s.zip.map Prod.fst).Nodup

theorem dinv_init (files : List DFile) : DInv files (initD files) :=
  { wlen := by simp [initD]
    part := by simp [initD]
    noPass := fun _ => rfl
    genIdle := fun h => absurd rfl h
    savedGen := fun h => absurd rfl h
    zipInv := fun b => by simp [initD, lookupZ]
    keyNodup := by simp [initD] }

theorem stepD_dinv {files : List DFile} {s : DState} (hd : DInv files s) (e : DEvent) :
    DInv files (stepD files s e) := by
  cases e with
  | complete w r =>
    simp only [stepD]
    cases hw : s.workers.getD w none with
    | none => exact hd
    | some i =>
      dsimp only
      by_cases hmm : r = FetchRes.aborted ∧ s.aborted = false
      · rw [if_pos hmm]; exact hd
      · rw [if_neg hmm]
        have hbusy : s.workers.all (fun o => o = none) = true → False := fun hall => by
          have := all_none_getD hall w
          rw [hw] at this
          exact absurd this (by simp)
        -- the completion itself
        have hcf : (completeFetch files s i r).queue = s.queue ∧
            (completeFetch files s i r).workers = s.workers ∧
            (completeFetch files s i r).fetchStarted = s.fetchStarted ∧
            (completeFetch files s i r).passedOver = s.passedOver ∧
            (completeFetch files s i r).aborted = s.aborted ∧
            (completeFetch files s i r).generated = s.generated ∧
            (completeFetch files s i r).saved = s.saved := by
          cases r <;> simp [completeFetch]
        obtain ⟨hq, hwk, hfs, hpo, hab, hgen, hsv⟩ := hcf
        have hzip : ∀ b, lookupZ (completeFetch files s i r).zip b =
            (((completeFetch files s i r).succ.filter
              (fun p => basename (files.getD p.1 default) = b)).getLast?).map Prod.snd := by
          intro b
          cases r with
          | ok blob =>
            dsimp only [completeFetch]
            by_cases hb : basename (files.getD i default) = b
            · rw [← hb, lookupZ_upsert_self]
              rw [List.filter_append]
              have hfil : List.filter (fun p => basename (files.getD p.1 default) =
                  basename (files.getD i default)) [(i, blob)] = [(i, blob)] := by
                rw [List.filter_cons_of_pos (by simp only [decide_eq_true_eq])]
                rfl
              rw [hfil, List.getLast?_concat]
              rfl
            · rw [lookupZ_upsert_ne _ _ _ _ (fun hbb => hb hbb.symm)]
              rw [List.filter_append]
              have hfil : List.filter (fun p => basename (files.getD p.1 default) = b)
                  [(i, blob)] = [] := by
                rw [List.filter_cons_of_neg (by simp only [decide_eq_true_eq]; exact hb)]
                rfl
              rw [hfil, List.append_nil]
              exact hd.zipInv b
          | fail => exact hd.zipInv b
          | aborted => exact hd.zipInv b
        have hkeys : ((completeFetch files s i r).zip.map Prod.fst).Nodup := by
          cases r with
          | ok blob => exact nodup_keys_upsert _ _ _ hd.keyNodup
          | fail => exact hd.keyNodup
          | aborted => exact hd.keyNodup
        -- then the worker takes the next file
        unfold takeNext
        by_cases habo : (completeFetch files s i r).aborted = true
        · rw [if_pos habo]
          refine
            { wlen := by simp [hwk, hd.wlen]
              part := ?_
              noPass := ?_
              genIdle := ?_
              savedGen := ?_
              zipInv := hzip
              keyNodup := hkeys }
          · show (completeFetch files s i r).fetchStarted ++
              ((completeFetch files s i r).passedOver ++ (completeFetch files s i r).queue) ++
              [] = List.range files.length
            rw [hfs, hpo, hq]
            rw [List.append_nil, ← List.append_assoc]
            exact hd.part
          · intro habf
            have hx : (completeFetch files s i r).aborted = false := habf
            rw [habo] at hx
            exact absurd hx (by simp)
          · intro hg
            have hg' : s.generated ≠ none := by rw [← hgen]; exact hg
            exact absurd (hd.genIdle hg').2 (fun hall => hbusy hall)
          · intro hs
            have hs' : s.saved ≠ none := by rw [← hsv]; exact hs
            show (completeFetch files s i r).generated ≠ none
            rw [hgen]
            exact hd.savedGen hs'
        · rw [if_neg habo]
          have hab0 : s.aborted = false := by
            rw [hab] at habo
            cases hx : s.aborted with
            | false => rfl
            | true => exact absurd hx habo
          have hpo0 : s.passedOver = [] := hd.noPass hab0
          have hqs : (completeFetch files s i r).queue = s.queue := hq
          rw [hqs]
          cases hqe : s.queue with
          | nil =>
            dsimp only
            refine
              { wlen := by simp [hwk, hd.wlen]
                part := ?_
                noPass := fun _ => by
                  show (completeFetch files s i r).passedOver = []
                  rw [hpo]
                  exact hpo0
                genIdle := ?_
                savedGen := ?_
                zipInv := hzip
                keyNodup := hkeys }
            · show (completeFetch files s i r).fetchStarted ++
                (completeFetch files s i r).passedOver ++ ([] : List ℕ) = List.range files.length
              rw [hfs, hpo]
              have hp := hd.part
              rw [hqe] at hp
              exact hp
            · intro hg
              have hg' : s.generated ≠ none := by rw [← hgen]; exact hg
              exact absurd (hd.genIdle hg').2 (fun hall => hbusy hall)
            · intro hs
              have hs' : s.saved ≠ none := by rw [← hsv]; exact hs
              show (completeFetch files s i r).generated ≠ none
              rw [hgen]
              exact hd.savedGen hs'
          | cons j rest =>
            dsimp only
            refine
              { wlen := by simp [hwk, hd.wlen]
                part := ?_
                noPass := fun _ => by
                  show (completeFetch files s i r).passedOver = []
                  rw [hpo]
                  exact hpo0
                genIdle := ?_
                savedGen := ?_
                zipInv := hzip
                keyNodup := hkeys }
            · show ((completeFetch files s i r).fetchStarted ++ [j]) ++
                (completeFetch files s i r).passedOver ++ rest = List.range files.length
              rw [hfs, hpo, hpo0]
              have hp := hd.part
              rw [hqe, hpo0] at hp
              simp only [List.append_nil] at hp ⊢
              rw [List.append_assoc, List.singleton_append]
              exact hp
            · intro hg
              have hg' : s.generated ≠ none := by rw [← hgen]; exact hg
              exact absurd (hd.genIdle hg').2 (fun hall => hbusy hall)
            · intro hs
              have hs' : s.saved ≠ none := by rw [← hsv]; exact hs
              show (completeFetch files s i r).generated ≠ none
              rw [hgen]
              exact hd.savedGen hs'
  | abort =>
    exact
      { wlen := hd.wlen
        part := hd.part
        noPass := fun h => absurd h (by simp [stepD])
        genIdle := hd.genIdle
        savedGen := hd.savedGen
        zipInv := hd.zipInv
        keyNodup := hd.keyNodup }
  | generate =>
    simp only [stepD]
    by_cases hg : s.queue = [] ∧ s.workers.all (fun o => o = none) = true ∧
        s.finished = false ∧ s.generated = none
    · rw [if_pos hg]
      by_cases hab : s.aborted = true
      · rw [if_pos hab]
        exact
          { wlen := hd.wlen
            part := hd.part
            noPass := hd.noPass
            genIdle := hd.genIdle
            savedGen := hd.savedGen
            zipInv := hd.zipInv
            keyNodup := hd.keyNodup }
      · rw [if_neg hab]
        exact
          { wlen := hd.wlen
            part := hd.part
            noPass := hd.noPass
            genIdle := fun _ => ⟨hg.1, hg.2.1⟩
            savedGen := fun hs => by
              have := hd.savedGen hs
              rw [hg.2.2.2] at this
              exact absurd rfl this
            zipInv := hd.zipInv
            keyNodup := hd.keyNodup }
    · rw [if_neg hg]; exact hd
  | save =>
    simp only [stepD]
    cases hgen : s.generated with
    | none => exact hd
    | some z =>
      dsimp only
      by_cases hf : s.finished = true
      · rw [if_pos hf]; exact hd
      · rw [if_neg hf]
        by_cases hab : s.aborted = true
        · rw [if_pos hab]
          exact
            { wlen := hd.wlen
              part := hd.part
              noPass := hd.noPass
              genIdle := fun _ => hd.genIdle (by rw [hgen]; exact Option.some_ne_none z)
              savedGen := fun hs => by simp
              zipInv := hd.zipInv
              keyNodup := hd.keyNodup }
        · rw [if_neg hab]
          exact
            { wlen := hd.wlen
              part := hd.part
              noPass := hd.noPass
              genIdle := fun _ => hd.genIdle (by rw [hgen]; exact Option.some_ne_none z)
              savedGen := fun _ => by simp
              zipInv := hd.zipInv
              keyNodup := hd.keyNodup }

theorem runD_dinv (files : List DFile) (t : List DEvent) : DInv files (runD files t) := by
  show DInv files (List.foldl (stepD files) (initD files) t)
  exact @foldl_inv DState DEvent (DInv files) (stepD files)
    (fun _ e hs => stepD_dinv hs e) t (initD files) (dinv_init files)

/-- After the shared signal fires, no step admits a new fetch and nothing is
generated or saved beyond what already was. -/
theorem stepD_abort_frozen {files : List DFile} {s : DState} (h : s.aborted = true)
    (e : DEvent) :
    (stepD files s e).aborted = true ∧
    (stepD files s e).fetchStarted = s.fetchStarted ∧
    (stepD files s e).generated = s.generated ∧
    (stepD files s e).saved = s.saved := by
  cases e with
  | complete w r =>
    simp only [stepD]
    cases hw : s.workers.getD w none with
    | none => exact ⟨h, rfl, rfl, rfl⟩
    | some i =>
      dsimp only
      by_cases hmm : r = FetchRes.aborted ∧ s.aborted = false
      · rw [if_pos hmm]
        exact ⟨h, rfl, rfl, rfl⟩
      · rw [if_neg hmm]
        have hcf : (completeFetch files s i r).fetchStarted = s.fetchStarted ∧
            (completeFetch files s i r).aborted = s.aborted ∧
            (completeFetch files s i r).generated = s.generated ∧
            (completeFetch files s i r).saved = s.saved := by
          cases r <;> simp [completeFetch]
        obtain ⟨hfs, hab, hgen, hsv⟩ := hcf
        unfold takeNext
        rw [if_pos (by rw [hab]; exact h)]
        refine ⟨?_, ?_, ?_, ?_⟩
        · show (completeFetch files s i r).aborted = true
          rw [hab]
          exact h
        · show (completeFetch files s i r).fetchStarted = s.fetchStarted
          exact hfs
        · show (completeFetch files s i r).generated = s.generated
          exact hgen
        · show (completeFetch files s i r).saved = s.saved
          exact hsv
  | abort => exact ⟨rfl, rfl, rfl, rfl⟩
  | generate =>
    simp only [stepD]
    by_cases hg : s.queue = [] ∧ s.workers.all (fun o => o = none) = true ∧
        s.finished = false ∧ s.generated = none
    · rw [if_pos hg, if_pos h]
      exact ⟨h, rfl, rfl, rfl⟩
    · rw [if_neg hg]
      exact ⟨h, rfl, rfl, rfl⟩
  | save =>
    simp only [stepD]
    cases hgen : s.generated with
    | none => exact ⟨h, rfl, hgen, rfl⟩
    | some z =>
      dsimp only
      by_cases hf : s.finished = true
      · rw [if_pos hf]
        exact ⟨h, rfl, by simp [hgen], rfl⟩
      · rw [if_neg hf, if_pos h]
        exact ⟨h, rfl, by simp [hgen], rfl⟩

theorem foldl_abort_frozen (files : List DFile) (t : List DEvent) :
    ∀ (s : DState), s.aborted = true →
      (t.foldl (stepD files) s).aborted = true ∧
      (t.foldl (stepD files) s).fetchStarted = s.fetchStarted ∧
      (t.foldl (stepD files) s).generated = s.generated ∧
      (t.foldl (stepD files) s).saved = s.saved := by
  induction t with
  | nil => exact fun s h => ⟨h, rfl, rfl, rfl⟩
  | cons e t ih =>
    intro s h
    obtain ⟨h1, h2, h3, h4⟩ := stepD_abort_frozen h e
    obtain ⟨g1, g2, g3, g4⟩ := ih (stepD files s e) h1
    simp only [List.foldl_cons]
    exact ⟨g1, by rw [g2, h2], by rw [g3, h3], by rw [g4, h4]⟩

/-- The two-phase finalization (`Promise.all` barrier, abort check,
`generateAsync`, abort check, `saveAs`) on a non-cancelled settled batch saves
exactly the accumulated zip. -/
theorem runD_finalize (files : List DFile) (t : List DEvent)
    (hq : (runD files t).queue = [])
    (hw : (runD files t).workers.all (fun o => o = none) = true)
    (ha : (runD files t).aborted = false)
    (hf : (runD files t).finished = false)
    (hg : (runD files t).generated = none) :
    (runD files (t ++ [DEvent.generate, DEvent.save])).saved =
      some ((runD files t).zip) := by
  have hsplit : runD files (t ++ [DEvent.generate, DEvent.save]) =
      stepD files (stepD files (runD files t) DEvent.generate) DEvent.save := by
    unfold runD
    rw [List.foldl_append]
    rfl
  have hgen : stepD files (runD files t) DEvent.generate =
      { runD files t with generated := some (runD files t).zip } := by
    simp only [stepD]
    rw [if_pos ⟨hq, hw, hf, hg⟩, if_neg (by rw [ha]; simp)]
  rw [hsplit, hgen]
  simp only [stepD]
  rw [if_neg (by show ¬(runD files t).finished = true; rw [hf]; simp),
    if_neg (by show ¬(runD files t).aborted = true; rw [ha]; simp)]

/-! ## Concrete download batches -/

def idA : String := "1"

def idB : String := "2"

def uA : String := "u1"

def uB : String := "u2"

def pA : String := "g/a.jpg"

def pB : String := "g/b.jpg"

def pX1 : String := "g1/x.jpg"

def pX2 : String := "g2/x.jpg"

def cA : String := "A"

def cB1 : String := "C1"

def cB2 : String := "C2"

def xJpg : String := "x.jpg"

/-- Two files: the first fetch succeeds, the second fails. -/
def dfiles6 : List DFile := [⟨idA, pA, uA⟩, ⟨idB, pB, uB⟩]

def dt6 : List DEvent := [DEvent.complete 0 (FetchRes.ok cA), DEvent.complete 1 FetchRes.fail]

/-- One file whose only fetch fails. -/
def dfiles9 : List DFile := [⟨idA, pA, uA⟩]

def dt9 : List DEvent := [DEvent.complete 0 FetchRes.fail]

def dt9full : List DEvent := dt9 ++ [DEvent.generate, DEvent.save]

/-- Two files in different folders sharing the basename `x.jpg`. -/
def dfiles10 : List DFile := [⟨idA, pX1, uA⟩, ⟨idB, pX2, uB⟩]

def dt10 : List DEvent :=
  [DEvent.complete 0 (FetchRes.ok cB1), DEvent.complete 1 (FetchRes.ok cB2)]

/-- Events after an abort fired with both initial fetches still in flight. -/
def dt8 : List DEvent :=
  [DEvent.complete 0 FetchRes.aborted, DEvent.complete 1 (FetchRes.ok cA),
   DEvent.generate, DEvent.save]

/-! ## Claims C6-C10 -/

/-- C6: a bulk-download batch that runs to completion without cancellation
saves an archive built exactly from the successful fetches: every entry's
payload comes from a successful fetch whose storage-path basename is the entry
name, every successful fetch is represented under its basename, and a failed
fetch contributes no entry and does not prevent the archive from being
produced and handed to `saveAs`. -/
theorem c6_archive_exactly_successes (files : List DFile) (t : List DEvent)
    (hq : (runD files t).queue = [])
    (hw : (runD files t).workers.all (fun o => o = none) = true)
    (ha : (runD files t).aborted = false)
    (hf : (runD files t).finished = false)
    (hg : (runD files t).generated = none) :
    (runD files (t ++ [DEvent.generate, DEvent.save])).saved =
      some ((runD files t).zip) ∧
    (∀ b v, lookupZ (runD files t).zip b = some v →
      ∃ p ∈ (runD files t).succ, basename (files.getD p.1 default) = b ∧ p.2 = v) ∧
    (∀ p ∈ (runD files t).succ,
      ∃ v, lookupZ (runD files t).zip (basename (files.getD p.1 default)) = some v) := by
  have hd := runD_dinv files t
  refine ⟨runD_finalize files t hq hw ha hf hg, ?_, ?_⟩
  · intro b v hlk
    have hz := hd.zipInv b
    rw [hlk] at hz
    obtain ⟨p, hp1, hp2⟩ := Option.map_eq_some'.mp hz.symm
    have hpmem : p ∈ ((runD files t).succ.filter
        (fun q => basename (files.getD q.1 default) = b)) := by
      have h1 : p ∈ ((runD files t).succ.filter
          (fun q => basename (files.getD q.1 default) = b)).getLast? := by
        rw [Option.mem_def]
        exact hp1
      obtain ⟨hne, heq⟩ := List.mem_getLast?_eq_getLast h1
      rw [heq]
      exact List.getLast_mem hne
    have := List.mem_filter.mp hpmem
    refine ⟨p, this.1, ?_, hp2⟩
    simpa using this.2
  · intro p hp
    have hz := hd.zipInv (basename (files.getD p.1 default))
    cases hlast : ((runD files t).succ.filter
        (fun q => basename (files.getD q.1 default) =
          basename (files.getD p.1 default))).getLast? with
    | none =>
      rw [List.getLast?_eq_none_iff] at hlast
      have : p ∈ ((runD files t).succ.filter
          (fun q => basename (files.getD q.1 default) =
            basename (files.getD p.1 default))) := by
        rw [List.mem_filter]
        exact ⟨hp, by simp⟩
      rw [hlast] at this
      exact absurd this (List.not_mem_nil p)
    | some q =>
      rw [hz, hlast]
      exact ⟨q.2, rfl⟩

theorem c6_witness :
    (runD dfiles6 (dt6 ++ [DEvent.generate, DEvent.save])).saved =
      some ((runD dfiles6 dt6).zip) :=
  (c6_archive_exactly_successes dfiles6 dt6 (by decide) (by decide) (by decide) (by decide)
    (by decide)).1

/-- C7: with `min 3 n` worker chains over a shared queue, at no instant are
more than `min 3 n` fetches in flight, no file is admitted twice (the list of
started fetches has no duplicates), and every queue entry is at all times in
exactly one of: started, passed over after cancellation, or still queued. -/
theorem c7_concurrency_bound_unique_admission (files : List DFile) (t : List DEvent) :
    ((runD files t).workers.filterMap id).length ≤ min 3 files.length ∧
    (runD files t).fetchStarted.Nodup ∧
    (runD files t).fetchStarted ++ (runD files t).passedOver ++ (runD files t).queue =
      List.range files.length := by
  have hd := runD_dinv files t
  refine ⟨?_, ?_, hd.part⟩
  · calc ((runD files t).workers.filterMap id).length ≤ (runD files t).workers.length :=
      List.length_filterMap_le _ _
    _ = min 3 files.length := hd.wlen
  · have hnd : ((runD files t).fetchStarted ++
        ((runD files t).passedOver ++ (runD files t).queue)).Nodup := by
      rw [← List.append_assoc, hd.part]
      exact List.nodup_range _
    exact hnd.of_append_left

/-- C8: once cancellation is requested while fetches are still in flight, no
new fetch ever begins (the started list is frozen), every file passed over
afterwards was never fetched, the batch terminates without generating or
saving any archive, and each in-flight fetch can resolve through the shared
abort signal: it is counted by the `finally` block but adds no archive entry
and is not logged as an error. -/
theorem c8_cancellation_stops_admission_no_archive (files : List DFile)
    (t1 t2 : List DEvent)
    (h : (runD files t1).workers.all (fun o => o = none) = false) :
    (runD files (t1 ++ DEvent.abort :: t2)).fetchStarted = (runD files t1).fetchStarted ∧
    (runD files (t1 ++ DEvent.abort :: t2)).generated = none ∧
    (runD files (t1 ++ DEvent.abort :: t2)).saved = none ∧
    (∀ j ∈ (runD files (t1 ++ DEvent.abort :: t2)).passedOver,
      j ∉ (runD files (t1 ++ DEvent.abort :: t2)).fetchStarted) ∧
    (∀ w i, (stepD files (runD files t1) DEvent.abort).workers.getD w none = some i →
      (stepD files (stepD files (runD files t1) DEvent.abort)
        (DEvent.complete w FetchRes.aborted)).processed = (runD files t1).processed + 1 ∧
      (stepD files (stepD files (runD files t1) DEvent.abort)
        (DEvent.complete w FetchRes.aborted)).zip = (runD files t1).zip ∧
      (stepD files (stepD files (runD files t1) DEvent.abort)
        (DEvent.complete w FetchRes.aborted)).failedLog = (runD files t1).failedLog) := by
  have hd1 := runD_dinv files t1
  have hgen1 : (runD files t1).generated = none := by
    cases hx : (runD files t1).generated with
    | none => rfl
    | some z =>
      have hall := (hd1.genIdle (by rw [hx]; exact Option.some_ne_none z)).2
      rw [h] at hall
      exact absurd hall (by simp)
  have hsv1 : (runD files t1).saved = none := by
    cases hx : (runD files t1).saved with
    | none => rfl
    | some z =>
      have := hd1.savedGen (by rw [hx]; exact Option.some_ne_none z)
      exact absurd hgen1 this
  have hsplit : runD files (t1 ++ DEvent.abort :: t2) =
      t2.foldl (stepD files) (stepD files (runD files t1) DEvent.abort) := by
    unfold runD
    rw [List.foldl_append]
    rfl
  obtain ⟨g1, g2, g3, g4⟩ :=
    foldl_abort_frozen files t2 (stepD files (runD files t1) DEvent.abort) rfl
  have hdf := runD_dinv files (t1 ++ DEvent.abort :: t2)
  refine ⟨?_, ?_, ?_, ?_, ?_⟩
  · rw [hsplit, g2]
    rfl
  · rw [hsplit, g3]
    exact hgen1
  · rw [hsplit, g4]
    exact hsv1
  · intro j hj hjf
    have hnd : ((runD files (t1 ++ DEvent.abort :: t2)).fetchStarted ++
        ((runD files (t1 ++ DEvent.abort :: t2)).passedOver ++
          (runD files (t1 ++ DEvent.abort :: t2)).queue)).Nodup := by
      rw [← List.append_assoc, hdf.part]
      exact List.nodup_range _
    exact (List.disjoint_of_nodup_append hnd) hjf (List.mem_append_left _ hj)
  · intro w i hwi
    have hwi2 : (runD files t1).workers.getD w none = some i := hwi
    simp only [stepD]
    rw [hwi2]
    exact ⟨rfl, rfl, rfl⟩

theorem c8_witness :
    (runD dfiles6 ([] ++ DEvent.abort :: dt8)).saved = none :=
  (c8_cancellation_stops_admission_no_archive dfiles6 [] dt8 (by decide)).2.2.1

/-- C9 (counterexample): with zero successful fetches the code does NOT
surface an empty-result error: the lone fetch fails, the success list is
empty, yet finalization silently generates the empty archive container and
hands it to `saveAs`. -/
theorem c9_empty_archive_saved_silently :
    (runD dfiles9 dt9full).succ = [] ∧
    (runD dfiles9 dt9full).failedLog = [0] ∧
    (runD dfiles9 dt9full).saved = some [] := by
  refine ⟨by decide, by decide, by decide⟩

/-- C9 (amended): for every bulk-download batch that settles without
cancellation and with zero successful fetches, finalization produces and
saves an archive container with zero entries; no empty-result error exists in
the code. -/
theorem c9_zero_success_saves_empty_archive (files : List DFile) (t : List DEvent)
    (hq : (runD files t).queue = [])
    (hw : (runD files t).workers.all (fun o => o = none) = true)
    (ha : (runD files t).aborted = false)
    (hf : (runD files t).finished = false)
    (hg : (runD files t).generated = none)
    (hs : (runD files t).succ = []) :
    (runD files (t ++ [DEvent.generate, DEvent.save])).saved = some [] := by
  have hzip : (runD files t).zip = [] := by
    cases hz : (runD files t).zip with
    | nil => rfl
    | cons p rest =>
      have hinv := (runD_dinv files t).zipInv p.1
      have hl : lookupZ (p :: rest) p.1 = some p.2 := by
        simp only [lookupZ]
        rw [List.find?_cons_of_pos _ (by simp)]
        rfl
      rw [hz, hs, hl] at hinv
      simp at hinv
  rw [runD_finalize files t hq hw ha hf hg, hzip]

theorem c9_witness :
    (runD dfiles9 (dt9 ++ [DEvent.generate, DEvent.save])).saved = some [] :=
  c9_zero_success_saves_empty_archive dfiles9 dt9 (by decide) (by decide) (by decide)
    (by decide) (by decide) (by decide)

/-- C10: every archive entry is keyed by the basename of the file's storage
path, and an entry holds the payload of the LAST successful fetch with that
basename (later additions replace earlier ones, and the key list stays free
of duplicates); concretely, two successfully fetched files `g1/x.jpg` and
`g2/x.jpg` yield a single entry `x.jpg` holding the later payload, so the
archive has fewer entries than successful fetches. -/
theorem c10_zip_keyed_by_basename_last_wins :
    (∀ (files : List DFile) (t : List DEvent) (b : String),
      lookupZ (runD files t).zip b =
        (((runD files t).succ.filter
          (fun p => basename (files.getD p.1 default) = b)).getLast?).map Prod.snd) ∧
    (∀ (files : List DFile) (t : List DEvent),
      ((runD files t).zip.map Prod.fst).Nodup) ∧
    (runD dfiles10 dt10).succ.length = 2 ∧
    (runD dfiles10 dt10).zip = [(xJpg, cB2)] := by
  refine ⟨fun files t b => (runD_dinv files t).zipInv b,
    fun files t => (runD_dinv files t).keyNodup, by decide, by decide⟩

end ProGallery
